import Mathlib

/-!
Verification of the pixel-removal engine and layered history subsystem of
the image-background-remover repository, as a shallow embedding in Lean.

The embedding works at pixel granularity: an RGBA buffer (a JS
`Uint8ClampedArray` of `width*height*4` bytes, addressed in the source by
flat byte indices) is modelled as a raster `Raster` with a total pixel
function `px : Nat → Nat → Pix`; the source's flat index `(y*width + x)*4`
corresponds to the coordinate pair `(x, y)`.  JS number arithmetic on
tolerances is modelled by exact rational arithmetic (for integer byte
differences and the ranges involved, the double-precision computation
`tolerance * 3 * 2.55` decides `<` exactly as the rational does, since
`7.65 * tolerance` is never closer to an integer than the rounding error).
-/

/-- One RGBA pixel; each channel is a byte 0–255 in real rasters, but the
model does not restrict the range. -/
structure Pix where
  r : Nat
  g : Nat
  b : Nat
  a : Nat
deriving DecidableEq, Repr

/-- A raster: width, height, and a pixel function.  Mirrors the `ImageData`
objects of the source (`width`, `height`, `data`); reads outside the bounds
never happen in the embedded code paths. -/
structure Raster where
  w : Nat
  h : Nat
  px : Nat → Nat → Pix

theorem Raster.ext' {A B : Raster} (hw : A.w = B.w) (hh : A.h = B.h)
    (hpx : ∀ x y, A.px x y = B.px x y) : A = B := by
  cases A; cases B
  simp only [Raster.mk.injEq]
  exact ⟨hw, hh, funext fun x => funext fun y => hpx x y⟩

/-- Set the alpha byte of the pixel at `(x, y)` to 0, leaving the color
bytes alone (`data[dataIdx + 3] = 0` in the source). -/
def clearAlpha (img : Raster) (x y : Nat) : Raster :=
  { img with px := fun u v => if u = x ∧ v = y then
      ⟨(img.px u v).r, (img.px u v).g, (img.px u v).b, 0⟩ else img.px u v }

@[simp] theorem clearAlpha_w (img : Raster) (x y : Nat) : (clearAlpha img x y).w = img.w := rfl

@[simp] theorem clearAlpha_h (img : Raster) (x y : Nat) : (clearAlpha img x y).h = img.h := rfl

theorem clearAlpha_px (img : Raster) (x y u v : Nat) :
    (clearAlpha img x y).px u v =
      if u = x ∧ v = y then ⟨(img.px u v).r, (img.px u v).g, (img.px u v).b, 0⟩
      else img.px u v := rfl

theorem clearAlpha_rgb (img : Raster) (x y u v : Nat) :
    ((clearAlpha img x y).px u v).r = (img.px u v).r ∧
    ((clearAlpha img x y).px u v).g = (img.px u v).g ∧
    ((clearAlpha img x y).px u v).b = (img.px u v).b := by
  rw [clearAlpha_px]
  split <;> simp

/-- `colorsMatch` of `src/utils/imageProcessing.ts`: the Manhattan distance of
two RGB triples is strictly below `tolerance * 3 * 2.55` (tolerance 0–100
maps onto the 0–765 byte-sum range). -/
def colorsMatch (r1 g1 b1 r2 g2 b2 : Nat) (tolerance : ℚ) : Bool :=
  decide (|(r1 : ℚ) - r2| + |(g1 : ℚ) - g2| + |(b1 : ℚ) - b2| < tolerance * 3 * 2.55)

theorem colorsMatch_zero (r1 g1 b1 r2 g2 b2 : Nat) :
    colorsMatch r1 g1 b1 r2 g2 b2 0 = false := by
  rw [colorsMatch, decide_eq_false_iff_not]
  intro h
  have h1 : (0 : ℚ) ≤ |(r1 : ℚ) - r2| + |(g1 : ℚ) - g2| + |(b1 : ℚ) - b2| := by positivity
  rw [zero_mul, zero_mul] at h
  exact absurd (lt_of_le_of_lt h1 h) (lt_irrefl 0)

/-! ### AlphaFeatherer (`applyAlphaSmoothing` of `src/utils/imageProcessing.ts`) -/

/-- Sum of the nine alpha bytes of the 3×3 neighborhood centred on `(x, y)`,
read from the snapshot raster (`originalData` in the source).  The source
iterates `dy` then `dx` over `-1..1`; for interior pixels `x-1`/`y-1` never
underflow. -/
def sum9 (orig : Raster) (x y : Nat) : Nat :=
  (orig.px (x-1) (y-1)).a + (orig.px x (y-1)).a + (orig.px (x+1) (y-1)).a +
  (orig.px (x-1) y).a + (orig.px x y).a + (orig.px (x+1) y).a +
  (orig.px (x-1) (y+1)).a + (orig.px x (y+1)).a + (orig.px (x+1) (y+1)).a

/-- The byte stored by `data[idx + 3] = sumAlpha / count` with `count = 9`:
assignment into a `Uint8ClampedArray` rounds to the nearest integer (the
quotient is never a tie, `s/9` is never a half-integer) and clamps to 255,
so the stored byte is `round(s/9) = ⌊(2s+9)/18⌋` capped at 255. -/
def avgAlpha (s : Nat) : Nat := min ((2 * s + 9) / 18) 255

/-- Overwrite the alpha byte at `(x, y)` with `aNew`, colors untouched. -/
def writeAlpha (d : Raster) (x y aNew : Nat) : Raster :=
  { d with px := fun u v => if u = x ∧ v = y then
      ⟨(d.px u v).r, (d.px u v).g, (d.px u v).b, aNew⟩ else d.px u v }

@[simp] theorem writeAlpha_w (d : Raster) (x y aNew : Nat) : (writeAlpha d x y aNew).w = d.w := rfl

@[simp] theorem writeAlpha_h (d : Raster) (x y aNew : Nat) : (writeAlpha d x y aNew).h = d.h := rfl

theorem writeAlpha_px (d : Raster) (x y aNew u v : Nat) :
    (writeAlpha d x y aNew).px u v =
      if u = x ∧ v = y then ⟨(d.px u v).r, (d.px u v).g, (d.px u v).b, aNew⟩
      else d.px u v := rfl

/-- The interior coordinates written by one smoothing pass, in source order:
`for y = 1; y < height - 1` outer, `for x = 1; x < width - 1` inner. -/
def interiorCoords (w h : Nat) : List (Nat × Nat) :=
  (List.range' 1 (h - 1 - 1)).flatMap fun y => (List.range' 1 (w - 1 - 1)).map fun x => (x, y)

theorem mem_interiorCoords (w h x y : Nat) :
    (x, y) ∈ interiorCoords w h ↔ 1 ≤ x ∧ x < w - 1 ∧ 1 ≤ y ∧ y < h - 1 := by
  simp only [interiorCoords, List.mem_flatMap, List.mem_map, List.mem_range'_1, Prod.mk.injEq]
  constructor
  · rintro ⟨y', ⟨hy1, hy2⟩, x', ⟨hx1, hx2⟩, hx, hy⟩
    subst hx; subst hy
    omega
  · rintro ⟨hx1, hx2, hy1, hy2⟩
    exact ⟨y, by omega, x, by omega, rfl, rfl⟩

/-- One smoothing pass: every interior pixel's alpha is overwritten with the
rounded 3×3 box average read from the snapshot `orig`; the 1-pixel border
frame is never written. -/
def smoothPass (orig d : Raster) : Raster :=
  (interiorCoords d.w d.h).foldl
    (fun acc p => writeAlpha acc p.1 p.2 (avgAlpha (sum9 orig p.1 p.2))) d

/-- The pass loop: at the start of every pass the snapshot read from equals
the raster written in the previous pass (`originalData` is a copy of `data`
before the first pass and is refreshed to `data` between passes). -/
def smoothLoop : Nat → Raster → Raster
  | 0, d => d
  | p + 1, d => smoothLoop p (smoothPass d d)

/-- `applyAlphaSmoothing`: no-op for `strength ≤ 0`, otherwise
`⌈strength/2⌉` passes. -/
def applyAlphaSmoothing (d : Raster) (strength : Nat) : Raster :=
  if strength ≤ 0 then d else smoothLoop ((strength + 1) / 2) d

/-- One smoothing pass, as the specification words it: a pointwise full
replacement of every interior alpha by the 3×3 neighborhood average over
the pre-pass snapshot, which here is the pass's own input raster. -/
def smoothPassSpec (d : Raster) : Raster :=
  { d with px := fun x y =>
      if 1 ≤ x ∧ x < d.w - 1 ∧ 1 ≤ y ∧ y < d.h - 1 then
        ⟨(d.px x y).r, (d.px x y).g, (d.px x y).b, avgAlpha (sum9 d x y)⟩
      else d.px x y }

theorem smoothFold_px (orig : Raster) :
    ∀ (l : List (Nat × Nat)) (d acc : Raster),
      (∀ u v, (acc.px u v).r = (d.px u v).r ∧ (acc.px u v).g = (d.px u v).g ∧
        (acc.px u v).b = (d.px u v).b) →
      ∀ x y,
        ((l.foldl (fun a p => writeAlpha a p.1 p.2 (avgAlpha (sum9 orig p.1 p.2))) acc).px x y) =
          if (x, y) ∈ l then
            ⟨(d.px x y).r, (d.px x y).g, (d.px x y).b, avgAlpha (sum9 orig x y)⟩
          else acc.px x y := by
  intro l
  induction l with
  | nil => intro d acc _ x y; simp
  | cons p rest ih =>
    intro d acc hrgb x y
    have hrgb' : ∀ u v,
        ((writeAlpha acc p.1 p.2 (avgAlpha (sum9 orig p.1 p.2))).px u v).r = (d.px u v).r ∧
        ((writeAlpha acc p.1 p.2 (avgAlpha (sum9 orig p.1 p.2))).px u v).g = (d.px u v).g ∧
        ((writeAlpha acc p.1 p.2 (avgAlpha (sum9 orig p.1 p.2))).px u v).b = (d.px u v).b := by
      intro u v
      rw [writeAlpha_px]
      split
      · simpa using hrgb u v
      · exact hrgb u v
    rw [List.foldl_cons, ih d _ hrgb' x y]
    by_cases hm : (x, y) ∈ rest
    · rw [if_pos hm, if_pos (List.mem_cons_of_mem p hm)]
    · rw [if_neg hm]
      by_cases hp : x = p.1 ∧ y = p.2
      · have hpxy : (x, y) ∈ p :: rest := by
          rw [hp.1, hp.2]
          exact List.mem_cons_self _ _
        rw [if_pos hpxy, writeAlpha_px, if_pos hp]
        obtain ⟨hr, hg, hb⟩ := hrgb x y
        rw [hr, hg, hb, ← hp.1, ← hp.2]
      · have hpxy : (x, y) ∉ p :: rest := by
          intro hc
          rcases List.mem_cons.1 hc with hc | hc
          · exact hp (by rw [Prod.mk.injEq] at hc; exact ⟨hc.1, hc.2⟩)
          · exact hm hc
        rw [if_neg hpxy, writeAlpha_px, if_neg hp]

theorem smoothFold_dims (orig : Raster) (l : List (Nat × Nat)) (acc : Raster) :
    (l.foldl (fun a p => writeAlpha a p.1 p.2 (avgAlpha (sum9 orig p.1 p.2))) acc).w = acc.w ∧
    (l.foldl (fun a p => writeAlpha a p.1 p.2 (avgAlpha (sum9 orig p.1 p.2))) acc).h = acc.h := by
  induction l generalizing acc with
  | nil => exact ⟨rfl, rfl⟩
  | cons p rest ih =>
    rw [List.foldl_cons]
    exact (ih _)

theorem smoothPass_eq_spec (d : Raster) : smoothPass d d = smoothPassSpec d := by
  refine Raster.ext' (smoothFold_dims d _ d).1 (smoothFold_dims d _ d).2 fun x y => ?_
  have h := smoothFold_px d (interiorCoords d.w d.h) d d (fun _ _ => ⟨rfl, rfl, rfl⟩) x y
  rw [smoothPass, h, smoothPassSpec]
  simp only [mem_interiorCoords]

theorem smoothLoop_eq_iterate (n : Nat) (d : Raster) :
    smoothLoop n d = smoothPassSpec^[n] d := by
  induction n generalizing d with
  | zero => rfl
  | succ n ih =>
    rw [smoothLoop, ih, smoothPass_eq_spec, Function.iterate_succ_apply]

/-! ### FloodFillRemover (`removeBackgroundSmart` of `src/utils/imageProcessing.ts`)

The source's pending set is a JS array used as a stack: `push` appends,
`pop` removes the last element.  The model keeps the stack as a list whose
head is the top (the last element pushed), so the four corner seeds pushed
in order `(0,0), (w-1,0), (0,h-1), (w-1,h-1)` give the initial list with
`(w-1,h-1)` at its head, and the four neighbor pushes `left, right, up,
down` leave `down` at the head.  The loop always consumes one stack entry,
so it is embedded with a fuel parameter; `floodLoop_fuel_stable` below shows
the fuel `removeBackgroundSmart` supplies is enough for the stack to drain,
so the embedding computes the same raster as the source's unbounded loop. -/

/-- A bounds-guarded push (`if (x > 0) queue.push(...)` and its three
siblings). -/
def pushIf (c : Prop) [Decidable c] (p : Nat × Nat) (l : List (Nat × Nat)) : List (Nat × Nat) :=
  if c then p :: l else l

/-- Push the four axis neighbors of `(x, y)` in source order (left, right,
up, down), each bounds-checked; the last pushed ends at the head. -/
def pushNeighbors (w h x y : Nat) (l : List (Nat × Nat)) : List (Nat × Nat) :=
  pushIf (y < h - 1) (x, y + 1)
    (pushIf (0 < y) (x, y - 1)
      (pushIf (x < w - 1) (x + 1, y)
        (pushIf (0 < x) (x - 1, y) l)))

/-- The BFS/DFS worklist loop of `removeBackgroundSmart`: pop a coordinate,
skip it if visited, mark it visited, and if its color matches the reference
color within tolerance, clear its alpha and push its neighbors. -/
def floodLoop (t : ℚ) (bgR bgG bgB w h : Nat) :
    Nat → Raster → (Nat → Nat → Bool) → List (Nat × Nat) → Raster
  | 0, img, _, _ => img
  | _ + 1, img, _, [] => img
  | fuel + 1, img, vis, (x, y) :: rest =>
    if vis x y then floodLoop t bgR bgG bgB w h fuel img vis rest
    else
      if colorsMatch (img.px x y).r (img.px x y).g (img.px x y).b bgR bgG bgB t then
        floodLoop t bgR bgG bgB w h fuel (clearAlpha img x y)
          (fun u v => if u = x ∧ v = y then true else vis u v) (pushNeighbors w h x y rest)
      else
        floodLoop t bgR bgG bgB w h fuel img
          (fun u v => if u = x ∧ v = y then true else vis u v) rest

/-- `removeBackgroundSmart`: reference color from the top-left pixel, seeds
at the four corners, flood fill, then optional smoothing. -/
def removeBackgroundSmart (img : Raster) (tolerance : ℚ) (smoothing : Nat) : Raster :=
  let res := floodLoop tolerance (img.px 0 0).r (img.px 0 0).g (img.px 0 0).b img.w img.h
    (5 * (img.w * img.h) + 4) img (fun _ _ => false)
    [(img.w - 1, img.h - 1), (0, img.h - 1), (img.w - 1, 0), (0, 0)]
  if 0 < smoothing then applyAlphaSmoothing res smoothing else res

/-- 4-adjacency of grid coordinates. -/
def Adj (x y u v : Nat) : Prop :=
  (u = x ∧ (v = y + 1 ∨ v + 1 = y)) ∨ (v = y ∧ (u = x + 1 ∨ u + 1 = x))

/-- `(x, y)` is one of the four image corners. -/
def IsCornerPt (w h x y : Nat) : Prop :=
  (x = 0 ∨ x = w - 1) ∧ (y = 0 ∨ y = h - 1)

/-- In-bounds coordinates. -/
def InB (w h x y : Nat) : Prop := x < w ∧ y < h

theorem InB_def (w h x y : Nat) : InB w h x y ↔ x < w ∧ y < h := Iff.rfl

/-- The pixel at `(x, y)` matches the reference color (the raster's top-left
pixel) within tolerance `t`. -/
def MatchesRef (img : Raster) (t : ℚ) (x y : Nat) : Prop :=
  colorsMatch (img.px x y).r (img.px x y).g (img.px x y).b
    (img.px 0 0).r (img.px 0 0).g (img.px 0 0).b t = true

/-- Reachability through an unbroken 4-connected chain of matching pixels
starting at a matching image corner: the set of pixels the flood fill can
ever clear. -/
inductive Reach (img : Raster) (t : ℚ) : Nat → Nat → Prop
  | corner {x y : Nat} : IsCornerPt img.w img.h x y → MatchesRef img t x y → Reach img t x y
  | step {x y u v : Nat} : Reach img t x y → Adj x y u v → InB img.w img.h u v →
      MatchesRef img t u v → Reach img t u v

theorem mem_pushNeighbors (w h x y : Nat) (l : List (Nat × Nat)) (p : Nat × Nat)
    (hp : p ∈ pushNeighbors w h x y l) :
    p ∈ l ∨ (p = (x - 1, y) ∧ 0 < x) ∨ (p = (x + 1, y) ∧ x < w - 1) ∨
      (p = (x, y - 1) ∧ 0 < y) ∨ (p = (x, y + 1) ∧ y < h - 1) := by
  simp only [pushNeighbors, pushIf] at hp
  split_ifs at hp <;> (try simp only [List.mem_cons] at hp) <;> tauto

/-- Soundness of the worklist loop: as long as every pending coordinate is
in bounds and is either a corner or adjacent to an already-reachable pixel,
and the raster so far differs from the original only at reachable pixels
(and only in alpha), an unreachable pixel is still untouched when the loop
ends — for any amount of fuel. -/
theorem floodLoop_sound (img0 : Raster) (t : ℚ) :
    ∀ (fuel : Nat) (img : Raster) (vis : Nat → Nat → Bool) (q : List (Nat × Nat)),
      (∀ p ∈ q, InB img0.w img0.h p.1 p.2 ∧
        (IsCornerPt img0.w img0.h p.1 p.2 ∨ ∃ u v, Adj u v p.1 p.2 ∧ Reach img0 t u v)) →
      (∀ x y, ¬ Reach img0 t x y → img.px x y = img0.px x y) →
      (∀ x y, (img.px x y).r = (img0.px x y).r ∧ (img.px x y).g = (img0.px x y).g ∧
        (img.px x y).b = (img0.px x y).b) →
      ∀ x y, ¬ Reach img0 t x y →
        (floodLoop t (img0.px 0 0).r (img0.px 0 0).g (img0.px 0 0).b img0.w img0.h
          fuel img vis q).px x y = img0.px x y := by
  intro fuel
  induction fuel with
  | zero => intro img vis q _ himg _ x y hnr; exact himg x y hnr
  | succ fuel ih =>
    intro img vis q hq himg hrgb x y hnr
    match q with
    | [] => exact himg x y hnr
    | (a, b) :: rest =>
      rw [floodLoop]
      have hqrest : ∀ p ∈ rest, InB img0.w img0.h p.1 p.2 ∧
          (IsCornerPt img0.w img0.h p.1 p.2 ∨ ∃ u v, Adj u v p.1 p.2 ∧ Reach img0 t u v) :=
        fun p hp => hq p (List.mem_cons_of_mem _ hp)
      by_cases hv : vis a b
      · rw [if_pos hv]
        exact ih img vis rest hqrest himg hrgb x y hnr
      · rw [if_neg hv]
        obtain ⟨hra, hga, hba⟩ := hrgb a b
        by_cases hm : colorsMatch (img.px a b).r (img.px a b).g (img.px a b).b
            (img0.px 0 0).r (img0.px 0 0).g (img0.px 0 0).b t = true
        · rw [if_pos hm]
          have hmatch : MatchesRef img0 t a b := by
            rw [MatchesRef, ← hra, ← hga, ← hba]; exact hm
          have hab := hq (a, b) (List.mem_cons_self _ _)
          have hreach : Reach img0 t a b := by
            rcases hab.2 with hc | ⟨u, v, hadj, hr⟩
            · exact Reach.corner hc hmatch
            · exact Reach.step hr hadj hab.1 hmatch
          have himg' : ∀ x' y', ¬ Reach img0 t x' y' →
              (clearAlpha img a b).px x' y' = img0.px x' y' := by
            intro x' y' hnr'
            rw [clearAlpha_px]
            split
            · rename_i hcond
              exact absurd (hcond.1 ▸ hcond.2 ▸ hreach) hnr'
            · exact himg x' y' hnr'
          have hrgb' : ∀ x' y', ((clearAlpha img a b).px x' y').r = (img0.px x' y').r ∧
              ((clearAlpha img a b).px x' y').g = (img0.px x' y').g ∧
              ((clearAlpha img a b).px x' y').b = (img0.px x' y').b := by
            intro x' y'
            obtain ⟨h1, h2, h3⟩ := clearAlpha_rgb img a b x' y'
            obtain ⟨h4, h5, h6⟩ := hrgb x' y'
            exact ⟨h1.trans h4, h2.trans h5, h3.trans h6⟩
          have hq' : ∀ p ∈ pushNeighbors img0.w img0.h a b rest,
              InB img0.w img0.h p.1 p.2 ∧
              (IsCornerPt img0.w img0.h p.1 p.2 ∨
                ∃ u v, Adj u v p.1 p.2 ∧ Reach img0 t u v) := by
            intro p hp
            obtain ⟨hInB, _⟩ := hab
            rw [InB_def] at hInB
            rcases mem_pushNeighbors _ _ _ _ _ _ hp with hrest | hnew
            · exact hqrest p hrest
            · rcases hnew with ⟨hpe, hx⟩ | ⟨hpe, hx⟩ | ⟨hpe, hx⟩ | ⟨hpe, hx⟩ <;> subst hpe
              · refine ⟨⟨by omega, hInB.2⟩, Or.inr ⟨a, b, ?_, hreach⟩⟩
                exact Or.inr ⟨rfl, Or.inr (by omega)⟩
              · refine ⟨⟨by omega, hInB.2⟩, Or.inr ⟨a, b, ?_, hreach⟩⟩
                exact Or.inr ⟨rfl, Or.inl rfl⟩
              · refine ⟨⟨hInB.1, by omega⟩, Or.inr ⟨a, b, ?_, hreach⟩⟩
                exact Or.inl ⟨rfl, Or.inr (by omega)⟩
              · refine ⟨⟨hInB.1, by omega⟩, Or.inr ⟨a, b, ?_, hreach⟩⟩
                exact Or.inl ⟨rfl, Or.inl rfl⟩
          exact ih _ _ _ hq' himg' hrgb' x y hnr
        · rw [if_neg hm]
          exact ih img _ rest hqrest himg hrgb x y hnr

/-- `removeBackgroundSmart` never touches a pixel that has no 4-connected
chain of matching pixels back to a matching corner (smoothing off). -/
theorem removeBackgroundSmart_sound (img : Raster) (t : ℚ) (hw : 1 ≤ img.w) (hh : 1 ≤ img.h)
    (x y : Nat) (hnr : ¬ Reach img t x y) :
    (removeBackgroundSmart img t 0).px x y = img.px x y := by
  rw [removeBackgroundSmart]
  rw [if_neg (by omega : ¬ 0 < 0)]
  refine floodLoop_sound img t _ img _ _ ?_ (fun _ _ _ => rfl) (fun _ _ => ⟨rfl, rfl, rfl⟩) x y hnr
  intro p hp
  have hcorner : ∀ cx cy, (cx = 0 ∨ cx = img.w - 1) → (cy = 0 ∨ cy = img.h - 1) →
      InB img.w img.h cx cy ∧ (IsCornerPt img.w img.h cx cy ∨
        ∃ u v, Adj u v cx cy ∧ Reach img t u v) := by
    intro cx cy hcx hcy
    refine ⟨⟨?_, ?_⟩, Or.inl ⟨hcx, hcy⟩⟩ <;> omega
  simp only [List.mem_cons, List.not_mem_nil, or_false] at hp
  rcases hp with h | h | h | h <;> subst h
  · exact hcorner _ _ (Or.inr rfl) (Or.inr rfl)
  · exact hcorner _ _ (Or.inl rfl) (Or.inr rfl)
  · exact hcorner _ _ (Or.inr rfl) (Or.inl rfl)
  · exact hcorner _ _ (Or.inl rfl) (Or.inl rfl)

/-- Clear the alpha byte at every coordinate of a list, in order. -/
def clearCoords (img : Raster) (l : List (Nat × Nat)) : Raster :=
  l.foldl (fun d p => clearAlpha d p.1 p.2) img

/-- The RGB projection of a raster: the bytes the flood fill's control flow
reads (it never reads alpha). -/
def rgbOf (img : Raster) : Nat → Nat → Nat × Nat × Nat :=
  fun x y => ((img.px x y).r, (img.px x y).g, (img.px x y).b)

theorem rgbOf_clearAlpha (img : Raster) (x y : Nat) :
    rgbOf (clearAlpha img x y) = rgbOf img := by
  funext u v
  obtain ⟨h1, h2, h3⟩ := clearAlpha_rgb img x y u v
  simp only [rgbOf, h1, h2, h3]

theorem clearCoords_dims (img : Raster) (l : List (Nat × Nat)) :
    (clearCoords img l).w = img.w ∧ (clearCoords img l).h = img.h := by
  induction l generalizing img with
  | nil => exact ⟨rfl, rfl⟩
  | cons p rest ih => exact ih (clearAlpha img p.1 p.2)

theorem clearCoords_px (img : Raster) (l : List (Nat × Nat)) (x y : Nat) :
    (clearCoords img l).px x y =
      if (x, y) ∈ l then ⟨(img.px x y).r, (img.px x y).g, (img.px x y).b, 0⟩
      else img.px x y := by
  induction l generalizing img with
  | nil => simp [clearCoords]
  | cons p rest ih =>
    rw [clearCoords, List.foldl_cons]
    rw [show (List.foldl (fun d p => clearAlpha d p.1 p.2) (clearAlpha img p.1 p.2) rest) =
      clearCoords (clearAlpha img p.1 p.2) rest from rfl, ih]
    obtain ⟨h1, h2, h3⟩ := clearAlpha_rgb img p.1 p.2 x y
    by_cases hm : (x, y) ∈ rest
    · rw [if_pos hm, if_pos (List.mem_cons_of_mem p hm), h1, h2, h3]
    · rw [if_neg hm, clearAlpha_px]
      by_cases hp : x = p.1 ∧ y = p.2
      · have : (x, y) ∈ p :: rest := by rw [hp.1, hp.2]; exact List.mem_cons_self _ _
        rw [if_pos hp, if_pos this]
      · have : (x, y) ∉ p :: rest := by
          intro hc
          rcases List.mem_cons.1 hc with hc | hc
          · exact hp (by rw [Prod.mk.injEq] at hc; exact ⟨hc.1, hc.2⟩)
          · exact hm hc
        rw [if_neg hp, if_neg this]

theorem rgbOf_clearCoords (img : Raster) (l : List (Nat × Nat)) :
    rgbOf (clearCoords img l) = rgbOf img := by
  funext x y
  rw [rgbOf, rgbOf, clearCoords_px]
  split <;> simp

theorem clearCoords_self (img : Raster) (l : List (Nat × Nat)) :
    clearCoords (clearCoords img l) l = clearCoords img l := by
  refine Raster.ext' ?_ ?_ fun x y => ?_
  · rw [(clearCoords_dims _ _).1, (clearCoords_dims _ _).1]
  · rw [(clearCoords_dims _ _).2, (clearCoords_dims _ _).2]
  · by_cases hm : (x, y) ∈ l <;> simp [clearCoords_px, hm]

/-- The coordinates the worklist loop clears, as a function of the RGB
projection alone: the loop's decisions read only color bytes, which it
never writes. -/
def clearedList (t : ℚ) (rgb : Nat → Nat → Nat × Nat × Nat) (bgR bgG bgB w h : Nat) :
    Nat → (Nat → Nat → Bool) → List (Nat × Nat) → List (Nat × Nat)
  | 0, _, _ => []
  | _ + 1, _, [] => []
  | fuel + 1, vis, (x, y) :: rest =>
    if vis x y then clearedList t rgb bgR bgG bgB w h fuel vis rest
    else
      if colorsMatch (rgb x y).1 (rgb x y).2.1 (rgb x y).2.2 bgR bgG bgB t then
        (x, y) :: clearedList t rgb bgR bgG bgB w h fuel
          (fun u v => if u = x ∧ v = y then true else vis u v) (pushNeighbors w h x y rest)
      else
        clearedList t rgb bgR bgG bgB w h fuel
          (fun u v => if u = x ∧ v = y then true else vis u v) rest

theorem floodLoop_eq_clearCoords (t : ℚ) (bgR bgG bgB w h : Nat) :
    ∀ (fuel : Nat) (img : Raster) (vis : Nat → Nat → Bool) (q : List (Nat × Nat)),
      floodLoop t bgR bgG bgB w h fuel img vis q =
        clearCoords img (clearedList t (rgbOf img) bgR bgG bgB w h fuel vis q) := by
  intro fuel
  induction fuel with
  | zero => intro img vis q; rfl
  | succ fuel ih =>
    intro img vis q
    match q with
    | [] => rfl
    | (x, y) :: rest =>
      rw [floodLoop, clearedList]
      by_cases hv : vis x y
      · rw [if_pos hv, if_pos hv, ih]
      · rw [if_neg hv, if_neg hv]
        by_cases hm : colorsMatch (img.px x y).r (img.px x y).g (img.px x y).b bgR bgG bgB t
        · rw [if_pos hm, if_pos (show colorsMatch (rgbOf img x y).1 (rgbOf img x y).2.1
            (rgbOf img x y).2.2 bgR bgG bgB t = true from hm)]
          rw [ih, rgbOf_clearAlpha]
          rfl
        · rw [if_neg hm, if_neg (show ¬ colorsMatch (rgbOf img x y).1 (rgbOf img x y).2.1
            (rgbOf img x y).2.2 bgR bgG bgB t = true from hm), ih]

theorem removeBackgroundSmart_as_clearCoords (img : Raster) (t : ℚ) :
    removeBackgroundSmart img t 0 =
      clearCoords img (clearedList t (rgbOf img) (img.px 0 0).r (img.px 0 0).g (img.px 0 0).b
        img.w img.h (5 * (img.w * img.h) + 4) (fun _ _ => false)
        [(img.w - 1, img.h - 1), (0, img.h - 1), (img.w - 1, 0), (0, 0)]) := by
  rw [removeBackgroundSmart]
  rw [if_neg (by omega : ¬ 0 < 0)]
  exact floodLoop_eq_clearCoords _ _ _ _ _ _ _ _ _ _

/-! ### BorderModelRemover (`removeBackgroundGrabCut` of `src/utils/imageProcessing.ts`)

The source also collects `bgSamples` from the outer border band, but that
sample set is never consulted by the matching step (only the four corner
pixels, read from the live buffer, are); the dead sampling loop writes no
pixel and is not part of the embedding. -/

/-- The four corner coordinates in the order of the source's flat-index list
`[0, (width-1)*4, (height-1)*width*4, (width*height-1)*4]`. -/
def cornerCoords (w h : Nat) : List (Nat × Nat) :=
  [(0, 0), (w - 1, 0), (0, h - 1), (w - 1, h - 1)]

/-- Does the pixel at `(x, y)` of `d` match any of the four corner pixels of
`d` (read live) within tolerance `t`?  The source's `for (const cIdx of
corners)` loop with early break. -/
def matchesAnyCorner (d : Raster) (t : ℚ) (x y : Nat) : Bool :=
  (cornerCoords d.w d.h).any fun c =>
    colorsMatch (d.px x y).r (d.px x y).g (d.px x y).b
      (d.px c.1 c.2).r (d.px c.1 c.2).g (d.px c.1 c.2).b t

/-- One step of the border-model scan: clear the pixel's alpha when it
matches a corner of the current raster. -/
def grabStep (t : ℚ) (d : Raster) (p : Nat × Nat) : Raster :=
  if matchesAnyCorner d t p.1 p.2 then clearAlpha d p.1 p.2 else d

/-- Row-major pixel order, `for (let i = 0; i < data.length; i += 4)`. -/
def rowMajor (w h : Nat) : List (Nat × Nat) :=
  (List.range h).flatMap fun y => (List.range w).map fun x => (x, y)

theorem mem_rowMajor (w h x y : Nat) : (x, y) ∈ rowMajor w h ↔ x < w ∧ y < h := by
  simp only [rowMajor, List.mem_flatMap, List.mem_map, List.mem_range, Prod.mk.injEq]
  constructor
  · rintro ⟨y', hy, x', hx, hx2, hy2⟩
    subst hx2; subst hy2
    exact ⟨hx, hy⟩
  · rintro ⟨hx, hy⟩
    exact ⟨y, hy, x, hx, rfl, rfl⟩

/-- The in-place single scan of `removeBackgroundGrabCut` (smoothing aside). -/
def grabScan (img : Raster) (t : ℚ) : Raster :=
  (rowMajor img.w img.h).foldl (grabStep t) img

/-- `removeBackgroundGrabCut`: scan every pixel against the four (live)
corner colors, then optional smoothing. -/
def removeBackgroundGrabCut (img : Raster) (tolerance : ℚ) (smoothing : Nat) : Raster :=
  if 0 < smoothing then applyAlphaSmoothing (grabScan img tolerance) smoothing
  else grabScan img tolerance

theorem rgbOf_components {d img : Raster} (hrgb : rgbOf d = rgbOf img) (u v : Nat) :
    (d.px u v).r = (img.px u v).r ∧ (d.px u v).g = (img.px u v).g ∧
      (d.px u v).b = (img.px u v).b := by
  have h := congrFun (congrFun hrgb u) v
  simp only [rgbOf, Prod.mk.injEq] at h
  exact ⟨h.1, h.2.1, h.2.2⟩

theorem matchesAnyCorner_congr {img d : Raster} (t : ℚ) (hw : d.w = img.w) (hh : d.h = img.h)
    (hrgb : rgbOf d = rgbOf img) (x y : Nat) :
    matchesAnyCorner d t x y = matchesAnyCorner img t x y := by
  rw [matchesAnyCorner, matchesAnyCorner, hw, hh]
  congr 1
  funext c
  obtain ⟨h1, h2, h3⟩ := rgbOf_components hrgb x y
  obtain ⟨h4, h5, h6⟩ := rgbOf_components hrgb c.1 c.2
  rw [h1, h2, h3, h4, h5, h6]

theorem grabStep_dims (t : ℚ) (d : Raster) (p : Nat × Nat) :
    (grabStep t d p).w = d.w ∧ (grabStep t d p).h = d.h := by
  rw [grabStep]; split <;> exact ⟨rfl, rfl⟩

theorem rgbOf_grabStep (t : ℚ) (d : Raster) (p : Nat × Nat) :
    rgbOf (grabStep t d p) = rgbOf d := by
  rw [grabStep]; split
  · exact rgbOf_clearAlpha d p.1 p.2
  · rfl

theorem grabFold_px (img : Raster) (t : ℚ) :
    ∀ (l : List (Nat × Nat)) (d : Raster), d.w = img.w → d.h = img.h → rgbOf d = rgbOf img →
      ∀ x y, ((l.foldl (grabStep t) d).px x y) =
        if (x, y) ∈ l ∧ matchesAnyCorner img t x y = true then
          ⟨(d.px x y).r, (d.px x y).g, (d.px x y).b, 0⟩
        else d.px x y := by
  intro l
  induction l with
  | nil => intro d _ _ _ x y; simp
  | cons p rest ih =>
    intro d hw hh hrgb x y
    rw [List.foldl_cons]
    have hw' : (grabStep t d p).w = img.w := (grabStep_dims t d p).1.trans hw
    have hh' : (grabStep t d p).h = img.h := (grabStep_dims t d p).2.trans hh
    have hrgb' : rgbOf (grabStep t d p) = rgbOf img := (rgbOf_grabStep t d p).trans hrgb
    rw [ih (grabStep t d p) hw' hh' hrgb' x y]
    have hdec : matchesAnyCorner d t p.1 p.2 = matchesAnyCorner img t p.1 p.2 :=
      matchesAnyCorner_congr t hw hh hrgb p.1 p.2
    obtain ⟨hs1, hs2, hs3⟩ := rgbOf_components (rgbOf_grabStep t d p) x y
    by_cases hm : matchesAnyCorner img t x y = true
    · by_cases hr : (x, y) ∈ rest
      · rw [if_pos ⟨hr, hm⟩, if_pos ⟨List.mem_cons_of_mem p hr, hm⟩, hs1, hs2, hs3]
      · rw [if_neg (fun hc => hr hc.1)]
        by_cases hp : x = p.1 ∧ y = p.2
        · have hmem : (x, y) ∈ p :: rest := by rw [hp.1, hp.2]; exact List.mem_cons_self _ _
          rw [if_pos ⟨hmem, hm⟩, grabStep]
          have : matchesAnyCorner d t p.1 p.2 = true := by
            rw [hdec, ← hp.1, ← hp.2]; exact hm
          rw [if_pos this, clearAlpha_px, if_pos hp]
        · have hmem : (x, y) ∉ p :: rest := by
            intro hc
            rcases List.mem_cons.1 hc with hc | hc
            · exact hp (by rw [Prod.mk.injEq] at hc; exact ⟨hc.1, hc.2⟩)
            · exact hr hc
          rw [if_neg (fun hc => hmem hc.1), grabStep]
          split
          · rw [clearAlpha_px, if_neg hp]
          · rfl
    · rw [if_neg (fun hc => hm hc.2), if_neg (fun hc => hm hc.2), grabStep]
      split
      · rw [clearAlpha_px]
        by_cases hp : x = p.1 ∧ y = p.2
        · rename_i hd
          rw [hdec] at hd
          rw [hp.1, hp.2] at hm
          exact absurd hd hm
        · rw [if_neg hp]
      · rfl

/-- The two-phase reference version of the border-model remover, following
the specification's reading of the scan: first snapshot the four corner RGB
triples of the input, then decide every in-bounds pixel against that
snapshot, clearing the alpha of each matching pixel.  (`matchesAnyCorner
img` applied to the immutable input raster IS the decision against the
snapshot of the pre-scan corner colors.) -/
def removeBackgroundGrabCutTwoPhase (img : Raster) (t : ℚ) : Raster :=
  { img with px := fun x y =>
      if (x < img.w ∧ y < img.h) ∧ matchesAnyCorner img t x y = true then
        ⟨(img.px x y).r, (img.px x y).g, (img.px x y).b, 0⟩
      else img.px x y }

theorem grabFold_dims (t : ℚ) : ∀ (l : List (Nat × Nat)) (d : Raster),
    (l.foldl (grabStep t) d).w = d.w ∧ (l.foldl (grabStep t) d).h = d.h := by
  intro l
  induction l with
  | nil => intro d; exact ⟨rfl, rfl⟩
  | cons p rest ih =>
    intro d
    rw [List.foldl_cons]
    obtain ⟨h1, h2⟩ := ih (grabStep t d p)
    obtain ⟨h3, h4⟩ := grabStep_dims t d p
    exact ⟨h1.trans h3, h2.trans h4⟩

theorem grabScan_eq_twoPhase (img : Raster) (t : ℚ) :
    grabScan img t = removeBackgroundGrabCutTwoPhase img t := by
  refine Raster.ext' (grabFold_dims t _ img).1 (grabFold_dims t _ img).2 fun x y => ?_
  rw [grabScan] at *
  rw [grabFold_px img t (rowMajor img.w img.h) img rfl rfl rfl x y]
  rw [removeBackgroundGrabCutTwoPhase]
  simp only [mem_rowMajor]

theorem clearedList_zero (rgb : Nat → Nat → Nat × Nat × Nat) (bgR bgG bgB w h : Nat) :
    ∀ (fuel : Nat) (vis : Nat → Nat → Bool) (q : List (Nat × Nat)),
      clearedList 0 rgb bgR bgG bgB w h fuel vis q = [] := by
  intro fuel
  induction fuel with
  | zero => intro vis q; rfl
  | succ fuel ih =>
    intro vis q
    match q with
    | [] => rfl
    | (x, y) :: rest =>
      rw [clearedList]
      by_cases hv : vis x y
      · rw [if_pos hv, ih]
      · rw [if_neg hv, colorsMatch_zero]
        simp only [Bool.false_eq_true, if_false]
        rw [ih]

theorem removeBackgroundSmart_tol_zero (img : Raster) :
    removeBackgroundSmart img 0 0 = img := by
  rw [removeBackgroundSmart_as_clearCoords, clearedList_zero]
  rfl

theorem matchesAnyCorner_zero (d : Raster) (x y : Nat) :
    matchesAnyCorner d 0 x y = false := by
  simp only [matchesAnyCorner, cornerCoords, List.any_cons, List.any_nil, colorsMatch_zero,
    Bool.or_self]

theorem removeBackgroundGrabCut_tol_zero (img : Raster) :
    removeBackgroundGrabCut img 0 0 = img := by
  rw [removeBackgroundGrabCut]
  rw [if_neg (by omega : ¬ 0 < 0)]
  rw [grabScan_eq_twoPhase]
  refine Raster.ext' rfl rfl fun x y => ?_
  rw [removeBackgroundGrabCutTwoPhase]
  simp only [matchesAnyCorner_zero, Bool.false_eq_true, and_false, if_false]

theorem removeBackgroundSmart_idem (img : Raster) (t : ℚ) :
    removeBackgroundSmart (removeBackgroundSmart img t 0) t 0 =
      removeBackgroundSmart img t 0 := by
  have h1 := removeBackgroundSmart_as_clearCoords img t
  have hrgb : rgbOf (removeBackgroundSmart img t 0) = rgbOf img := by
    rw [h1, rgbOf_clearCoords]
  have hw : (removeBackgroundSmart img t 0).w = img.w := by
    rw [h1]; exact (clearCoords_dims _ _).1
  have hh : (removeBackgroundSmart img t 0).h = img.h := by
    rw [h1]; exact (clearCoords_dims _ _).2
  obtain ⟨hr, hg, hb⟩ := rgbOf_components hrgb 0 0
  have h2 := removeBackgroundSmart_as_clearCoords (removeBackgroundSmart img t 0) t
  rw [hrgb, hw, hh, hr, hg, hb] at h2
  rw [h2, h1, clearCoords_self]

/-! ### Layered session state and history stacks (`src/components/ImageWorkspace.tsx`)

The JS history arrays push and pop at the END and `shift()` drops the FRONT
(the oldest entry).  The model keeps each stack as a list whose HEAD is the
newest entry (the stack top), so a push is `::`, a pop takes the head, and
`shift()` is `dropLast`. -/

/-- A fully transparent raster of the given size: what `clearRect` leaves
on a canvas (every RGBA byte zero). -/
def transparentRaster (w h : Nat) : Raster := ⟨w, h, fun _ _ => ⟨0, 0, 0, 0⟩⟩

/-- Modelled from the spec: the canvas `destination-out` compositing the
Apply step runs (`baseCtx.globalCompositeOperation = 'destination-out'`
followed by `drawImage(maskLayer)`; the canvas itself is a browser
primitive, not repository code).  Per pixel,
`result.alpha = base.alpha * (1 - mask.alpha/255)` with the fractional
byte floored, and the color channels are unchanged. -/
def destOut (base mask : Raster) : Raster :=
  { base with px := fun x y =>
      ⟨(base.px x y).r, (base.px x y).g, (base.px x y).b,
        (base.px x y).a * (255 - (mask.px x y).a) / 255⟩ }

/-- Push onto a history stack, then drop the oldest entry when the stack
has outgrown its cap (`push` followed by `if (length > cap) shift()`). -/
def pushCap (cap : Nat) (x : Raster) (l : List Raster) : List Raster :=
  if (x :: l).length > cap then (x :: l).dropLast else x :: l

/-- The workspace session: the loaded source image, the base (committed)
layer, the mask (pending manual strokes) layer, and the two history
stacks (`historyRef` and `maskHistoryRef`). -/
structure Session where
  original : Raster
  base : Raster
  mask : Raster
  baseHistory : List Raster
  maskHistory : List Raster

/-- The algorithm selector (`'FLOOD_FILL' | 'GRABCUT'`). -/
inductive Alg where
  | floodFill
  | grabCut
deriving DecidableEq

/-- The operations of the workspace that touch layers or history:
image load, automatic removal, external full-raster override, Apply,
undo, and the start of a manual stroke (which pushes the pre-stroke mask
snapshot and then paints, leaving an arbitrary new mask). -/
inductive Op where
  | load (img : Raster)
  | autoRemove (alg : Alg) (tolerance : ℚ) (smoothing : Nat)
  | override (img : Raster)
  | applyMask
  | undo
  | strokeStart (newMask : Raster)

/-- Image-load initialization: base layer drawn from the image, mask layer
fresh and transparent, `historyRef = [initial base]`, `maskHistoryRef = []`. -/
def loadSession (img : Raster) : Session :=
  { original := img
    base := img
    mask := transparentRaster img.w img.h
    baseHistory := [img]
    maskHistory := [] }

/-- The undo effect: pop a mask stroke if any exists (and stop), else pop
the base history when more than one entry remains, else do nothing. -/
def undoOp (s : Session) : Session :=
  match s.maskHistory with
  | m :: rest => { s with mask := m, maskHistory := rest }
  | [] =>
    match s.baseHistory with
    | _ :: b :: rest => { s with base := b, baseHistory := b :: rest }
    | _ => s

/-- One workspace operation.  Auto-remove resets the base to the original
image, runs the selected remover, clears the mask and its history, and
pushes the new base with NO cap check; override replaces the base and
pushes with NO cap check; Apply merges mask into base by destination-out,
clears the mask and its history, and pushes with the 30-entry cap; a
stroke start pushes the pre-stroke mask with the 20-entry cap. -/
def stepOp (s : Session) : Op → Session
  | .load img => loadSession img
  | .autoRemove alg t sm =>
    let nb := match alg with
      | .grabCut => removeBackgroundGrabCut s.original t sm
      | .floodFill => removeBackgroundSmart s.original t sm
    { s with base := nb
             mask := transparentRaster s.base.w s.base.h
             maskHistory := []
             baseHistory := nb :: s.baseHistory }
  | .override img =>
    { s with base := img
             mask := transparentRaster s.base.w s.base.h
             maskHistory := []
             baseHistory := img :: s.baseHistory }
  | .applyMask =>
    let nb := destOut s.base s.mask
    { s with base := nb
             mask := transparentRaster s.mask.w s.mask.h
             maskHistory := []
             baseHistory := pushCap 30 nb s.baseHistory }
  | .undo => undoOp s
  | .strokeStart newMask =>
    { s with maskHistory := pushCap 20 s.mask s.maskHistory
             mask := newMask }

/-- A session history: load an image, then run a sequence of operations. -/
def runOps (img : Raster) (ops : List Op) : Session :=
  ops.foldl stepOp (loadSession img)

theorem pushCap_length (cap : Nat) (x : Raster) (l : List Raster) :
    (pushCap cap x l).length = if l.length + 1 > cap then l.length else l.length + 1 := by
  rw [pushCap]
  by_cases hc : (x :: l).length > cap
  · rw [if_pos hc, List.length_dropLast, List.length_cons]
    rw [if_pos (by simpa using hc)]
    omega
  · rw [if_neg hc, List.length_cons, if_neg (by simpa using hc)]

theorem pushCap_head (cap : Nat) (x : Raster) (l : List Raster) (hcap : 1 ≤ cap) :
    (pushCap cap x l).head? = some x := by
  rw [pushCap]
  by_cases hc : (x :: l).length > cap
  · rw [if_pos hc]
    match l with
    | [] => simp at hc; omega
    | y :: rest => rw [List.dropLast_cons₂]; rfl
  · rw [if_neg hc]; rfl

/-- The history-stack invariant the code actually maintains: the base
history never drains below its seed entry, and the mask history never
exceeds its 20-entry cap. -/
def HistInv (s : Session) : Prop :=
  1 ≤ s.baseHistory.length ∧ s.maskHistory.length ≤ 20

theorem undoOp_maskPop (s : Session) (m : Raster) (rest : List Raster)
    (hm : s.maskHistory = m :: rest) :
    undoOp s = { s with mask := m, maskHistory := rest } := by
  rw [undoOp, hm]

theorem undoOp_basePop (s : Session) (b1 b2 : Raster) (rest : List Raster)
    (hm : s.maskHistory = []) (hb : s.baseHistory = b1 :: b2 :: rest) :
    undoOp s = { s with base := b2, baseHistory := b2 :: rest } := by
  rw [undoOp, hm, hb]

theorem undoOp_noop (s : Session) (hm : s.maskHistory = [])
    (hb : s.baseHistory.length ≤ 1) : undoOp s = s := by
  rw [undoOp, hm]
  rcases hbl : s.baseHistory with _ | ⟨b1, tl⟩
  · rfl
  · rcases tl with _ | ⟨b2, rest2⟩
    · rfl
    · rw [hbl] at hb; simp at hb

theorem histInv_step (s : Session) (op : Op) (hs : HistInv s) : HistInv (stepOp s op) := by
  obtain ⟨h1, h2⟩ := hs
  cases op with
  | load img => exact ⟨by simp [stepOp, loadSession], by simp [stepOp, loadSession]⟩
  | autoRemove alg t sm => exact ⟨by simp [stepOp], by simp [stepOp]⟩
  | override img => exact ⟨by simp [stepOp], by simp [stepOp]⟩
  | applyMask =>
    refine ⟨?_, by simp [stepOp]⟩
    show 1 ≤ (pushCap 30 _ s.baseHistory).length
    rw [pushCap_length]
    split <;> omega
  | undo =>
    show HistInv (undoOp s)
    rcases hm : s.maskHistory with _ | ⟨m, rest⟩
    · by_cases hb : s.baseHistory.length ≤ 1
      · rw [undoOp_noop s hm hb]
        exact ⟨h1, h2⟩
      · rcases hbl : s.baseHistory with _ | ⟨b1, tl⟩
        · rw [hbl] at h1; simp at h1
        · rcases tl with _ | ⟨b2, rest2⟩
          · rw [hbl] at hb; simp at hb
          · rw [undoOp_basePop s b1 b2 rest2 hm hbl]
            refine ⟨by simp, ?_⟩
            show s.maskHistory.length ≤ 20
            exact h2
    · rw [undoOp_maskPop s m rest hm]
      refine ⟨h1, ?_⟩
      show rest.length ≤ 20
      rw [hm] at h2
      simp only [List.length_cons] at h2
      omega
  | strokeStart nm =>
    refine ⟨h1, ?_⟩
    show (pushCap 20 s.mask s.maskHistory).length ≤ 20
    rw [pushCap_length]
    split <;> omega

theorem histInv_runOps (img : Raster) (ops : List Op) : HistInv (runOps img ops) := by
  rw [runOps]
  have hload : HistInv (loadSession img) := ⟨by simp [loadSession], by simp [loadSession]⟩
  generalize loadSession img = s0 at hload ⊢
  induction ops generalizing s0 with
  | nil => exact hload
  | cons op rest ih => exact ih (stepOp s0 op) (histInv_step s0 op hload)

theorem smoothPassSpec_dims (d : Raster) :
    (smoothPassSpec d).w = d.w ∧ (smoothPassSpec d).h = d.h := ⟨rfl, rfl⟩

theorem smoothIter_dims (n : Nat) (d : Raster) :
    (smoothPassSpec^[n] d).w = d.w ∧ (smoothPassSpec^[n] d).h = d.h := by
  induction n with
  | zero => exact ⟨rfl, rfl⟩
  | succ n ih =>
    rw [Function.iterate_succ_apply']
    exact ⟨(smoothPassSpec_dims _).1.trans ih.1, (smoothPassSpec_dims _).2.trans ih.2⟩

theorem smoothIter_px (n : Nat) (d : Raster) (x y : Nat) :
    ((smoothPassSpec^[n] d).px x y).r = (d.px x y).r ∧
    ((smoothPassSpec^[n] d).px x y).g = (d.px x y).g ∧
    ((smoothPassSpec^[n] d).px x y).b = (d.px x y).b ∧
    (¬ (1 ≤ x ∧ x < d.w - 1 ∧ 1 ≤ y ∧ y < d.h - 1) →
      (smoothPassSpec^[n] d).px x y = d.px x y) := by
  induction n with
  | zero => exact ⟨rfl, rfl, rfl, fun _ => rfl⟩
  | succ n ih =>
    rw [Function.iterate_succ_apply']
    obtain ⟨ihr, ihg, ihb, ihout⟩ := ih
    obtain ⟨hw, hh⟩ := smoothIter_dims n d
    have hpx : (smoothPassSpec (smoothPassSpec^[n] d)).px x y =
        if 1 ≤ x ∧ x < d.w - 1 ∧ 1 ≤ y ∧ y < d.h - 1 then
          ⟨((smoothPassSpec^[n] d).px x y).r, ((smoothPassSpec^[n] d).px x y).g,
            ((smoothPassSpec^[n] d).px x y).b,
            avgAlpha (sum9 (smoothPassSpec^[n] d) x y)⟩
        else (smoothPassSpec^[n] d).px x y := by
      rw [smoothPassSpec, hw, hh]
    rw [hpx]
    by_cases hc : 1 ≤ x ∧ x < d.w - 1 ∧ 1 ≤ y ∧ y < d.h - 1
    · rw [if_pos hc]
      exact ⟨ihr, ihg, ihb, fun hout => absurd hc hout⟩
    · rw [if_neg hc]
      exact ⟨ihr, ihg, ihb, fun _ => ihout hc⟩

/-! ### The claims -/

/-- A concrete 1×1 all-white raster used by the concrete history runs. -/
def whiteRaster : Raster := ⟨1, 1, fun _ _ => ⟨255, 255, 255, 255⟩⟩

/-- C1, counterexample: after loading an image and running 30 external
full-raster overrides, `baseHistory` holds 31 entries — the override (and
auto-remove) push sites enforce no cap, so `len(baseHistory) ≤ 30` fails. -/
theorem claim1_counterexample :
    30 < (runOps whiteRaster (List.replicate 30 (Op.override whiteRaster))).baseHistory.length := by
  decide

/-- C1, amended: after every sequence of operations following an image
load, `1 ≤ len(baseHistory)` and `0 ≤ len(maskHistory) ≤ 20` hold, and the
two push sites that do enforce a cap (Apply for `baseHistory`, stroke
start for `maskHistory`) keep the newest entry, discarding the oldest; but
the 30-entry bound on `baseHistory` is enforced only at Apply — automatic
removal and external override push without any cap check, so
`len(baseHistory) ≤ 30` does not hold in general. -/
theorem claim1_historyCaps (img : Raster) (ops : List Op) :
    1 ≤ (runOps img ops).baseHistory.length ∧
    (runOps img ops).maskHistory.length ≤ 20 ∧
    (stepOp (runOps img ops) Op.applyMask).baseHistory.head? =
      some (destOut (runOps img ops).base (runOps img ops).mask) ∧
    (∀ m, (stepOp (runOps img ops) (Op.strokeStart m)).maskHistory.head? =
      some (runOps img ops).mask) := by
  obtain ⟨h1, h2⟩ := histInv_runOps img ops
  refine ⟨h1, h2, ?_, fun m => ?_⟩
  · exact pushCap_head 30 _ _ (by omega)
  · exact pushCap_head 20 _ _ (by omega)

/-- C2: Apply sets every mask pixel fully transparent, empties
`maskHistory`, and pushes exactly one new `baseHistory` entry — the
destination-out composite of the pre-apply base with the pre-apply mask
(`alpha = base.alpha * (1 - mask.alpha/255)`, colors unchanged); the stack
grows by one unless the cap trims the oldest entry. -/
theorem claim2_applyMask (s : Session) :
    (∀ x y, ((stepOp s Op.applyMask).mask.px x y).a = 0) ∧
    (stepOp s Op.applyMask).maskHistory = [] ∧
    (stepOp s Op.applyMask).baseHistory.head? = some (destOut s.base s.mask) ∧
    (stepOp s Op.applyMask).baseHistory.length =
      (if s.baseHistory.length + 1 > 30 then s.baseHistory.length
       else s.baseHistory.length + 1) ∧
    (∀ x y, (destOut s.base s.mask).px x y =
      ⟨(s.base.px x y).r, (s.base.px x y).g, (s.base.px x y).b,
        (s.base.px x y).a * (255 - (s.mask.px x y).a) / 255⟩) := by
  refine ⟨fun x y => rfl, rfl, ?_, ?_, fun x y => rfl⟩
  · exact pushCap_head 30 _ _ (by omega)
  · exact pushCap_length 30 _ _

/-- C3: undo is the two-tier transition — a pending mask snapshot is
popped and restored (base layer and base history untouched in the same
request); otherwise with more than one base entry the top is discarded and
the new top restored; otherwise undo is a no-op. -/
theorem claim3_undoTwoTier (s : Session) :
    (∀ m rest, s.maskHistory = m :: rest →
      stepOp s Op.undo = { s with mask := m, maskHistory := rest }) ∧
    (∀ b1 b2 rest, s.maskHistory = [] → s.baseHistory = b1 :: b2 :: rest →
      stepOp s Op.undo = { s with base := b2, baseHistory := b2 :: rest }) ∧
    (s.maskHistory = [] → s.baseHistory.length ≤ 1 → stepOp s Op.undo = s) :=
  ⟨fun m rest hm => undoOp_maskPop s m rest hm,
   fun b1 b2 rest hm hb => undoOp_basePop s b1 b2 rest hm hb,
   fun hm hb => undoOp_noop s hm hb⟩

/-- C4: the flood-fill remover leaves a pixel untouched (all four bytes)
whenever no 4-connected chain of matching pixels links it to a matching
corner — so a fully enclosed same-colored hole keeps its alpha — while the
border-model remover clears the alpha of every in-bounds pixel that
matches any of the four corner colors, with no connectivity requirement. -/
theorem claim4_floodVsBorder (img : Raster) (t : ℚ) (x y u v : Nat) :
    (1 ≤ img.w → 1 ≤ img.h → ¬ Reach img t x y →
      (removeBackgroundSmart img t 0).px x y = img.px x y) ∧
    (u < img.w → v < img.h → matchesAnyCorner img t u v = true →
      ((removeBackgroundGrabCut img t 0).px u v).a = 0) := by
  constructor
  · intro hw hh hnr
    exact removeBackgroundSmart_sound img t hw hh x y hnr
  · intro hu hv hm
    rw [removeBackgroundGrabCut, if_neg (by omega : ¬ 0 < 0), grabScan_eq_twoPhase]
    show (if (u < img.w ∧ v < img.h) ∧ matchesAnyCorner img t u v = true then
        (⟨(img.px u v).r, (img.px u v).g, (img.px u v).b, 0⟩ : Pix) else img.px u v).a = 0
    rw [if_pos ⟨⟨hu, hv⟩, hm⟩]

/-- C5: the alpha featherer is the identity for strength ≤ 0 (= 0 over ℕ),
and otherwise performs exactly ⌈strength/2⌉ passes, each a full pointwise
replacement of every interior alpha by the unweighted (rounded) 3×3
average read from the pre-pass snapshot, the snapshot refreshed to the
just-written raster between passes (the iterate of the one-pass map). -/
theorem claim5_feathererPasses (img : Raster) (strength : Nat) :
    applyAlphaSmoothing img strength =
      if strength = 0 then img else smoothPassSpec^[(strength + 1) / 2] img := by
  by_cases h : strength = 0
  · rw [if_pos h, applyAlphaSmoothing, if_pos (by omega)]
  · rw [if_neg h, applyAlphaSmoothing, if_neg (by omega), smoothLoop_eq_iterate]

/-- C6: for every raster and strength, the featherer leaves every pixel's
R, G, B bytes unchanged, and leaves the whole pixel unchanged on the
outermost 1-pixel border frame: only interior alpha bytes may differ. -/
theorem claim6_feathererFrame (img : Raster) (strength : Nat) (x y : Nat) :
    ((applyAlphaSmoothing img strength).px x y).r = (img.px x y).r ∧
    ((applyAlphaSmoothing img strength).px x y).g = (img.px x y).g ∧
    ((applyAlphaSmoothing img strength).px x y).b = (img.px x y).b ∧
    ((x = 0 ∨ y = 0 ∨ x = img.w - 1 ∨ y = img.h - 1) →
      (applyAlphaSmoothing img strength).px x y = img.px x y) := by
  by_cases h : strength = 0
  · rw [applyAlphaSmoothing, if_pos (by omega)]
    exact ⟨rfl, rfl, rfl, fun _ => rfl⟩
  · rw [applyAlphaSmoothing, if_neg (by omega), smoothLoop_eq_iterate]
    obtain ⟨h1, h2, h3, h4⟩ := smoothIter_px ((strength + 1) / 2) img x y
    refine ⟨h1, h2, h3, fun hb => h4 ?_⟩
    rintro ⟨hx1, hx2, hy1, hy2⟩
    rcases hb with hb | hb | hb | hb <;> omega

/-- C7: the flood-fill remover is idempotent — its control flow reads only
the color bytes, which it never writes, so a second run with the same
tolerance on its own output retraces the same worklist and clears the same
already-cleared set. -/
theorem claim7_floodFillIdempotent (img : Raster) (t : ℚ) :
    removeBackgroundSmart (removeBackgroundSmart img t 0) t 0 =
      removeBackgroundSmart img t 0 :=
  removeBackgroundSmart_idem img t

/-- C8: the color matcher returns true iff the Manhattan RGB distance is
strictly below `tolerance * 3 * 2.55`, and is symmetric in its two
colors. -/
theorem claim8_colorsMatch (r1 g1 b1 r2 g2 b2 : Nat) (t : ℚ) :
    (colorsMatch r1 g1 b1 r2 g2 b2 t = true ↔
      |(r1 : ℚ) - r2| + |(g1 : ℚ) - g2| + |(b1 : ℚ) - b2| < t * 3 * 2.55) ∧
    colorsMatch r1 g1 b1 r2 g2 b2 t = colorsMatch r2 g2 b2 r1 g1 b1 t := by
  constructor
  · simp [colorsMatch]
  · rw [colorsMatch, colorsMatch, abs_sub_comm ((r1 : ℚ)) ((r2 : ℚ)),
      abs_sub_comm ((g1 : ℚ)) ((g2 : ℚ)), abs_sub_comm ((b1 : ℚ)) ((b2 : ℚ))]

/-- C9: with tolerance 0 and smoothing 0, both removers return the raster
unchanged in every byte: the match test is a strict `<` against
`0 * 3 * 2.55 = 0`, so not even an identical color matches. -/
theorem claim9_toleranceZeroIdentity (img : Raster) :
    removeBackgroundSmart img 0 0 = img ∧ removeBackgroundGrabCut img 0 0 = img :=
  ⟨removeBackgroundSmart_tol_zero img, removeBackgroundGrabCut_tol_zero img⟩

/-- C10: the border-model remover's in-place single scan (smoothing off)
equals the two-phase reference that first snapshots the four corner RGB
triples and then decides every pixel against that snapshot — the scan
writes only alpha bytes and the match reads only color bytes, so corners
already made transparent decide identically. -/
theorem claim10_borderScanTwoPhase (img : Raster) (t : ℚ) :
    removeBackgroundGrabCut img t 0 = removeBackgroundGrabCutTwoPhase img t := by
  rw [removeBackgroundGrabCut, if_neg (by omega : ¬ 0 < 0)]
  exact grabScan_eq_twoPhase img t

/-! ### Fuel sufficiency for the worklist loop

Each pop either skips a visited coordinate (queue shrinks) or visits a new
in-bounds pixel (at most four pushes).  The measure `|queue| + 5·|unvisited
in-bounds pixels|` strictly decreases at every step, so once the fuel is at
least the measure, extra fuel changes nothing: the queue is already drained
when the fuel runs out, and the embedding computes exactly what the
source's unbounded loop does. -/

/-- The number of in-bounds coordinates not yet visited. -/
def unvisitedCount (w h : Nat) (vis : Nat → Nat → Bool) : Nat :=
  ((Finset.range w ×ˢ Finset.range h).filter fun p => vis p.1 p.2 = false).card

theorem unvisitedCount_update (w h x y : Nat) (vis : Nat → Nat → Bool)
    (hx : x < w) (hy : y < h) (hv : vis x y = false) :
    unvisitedCount w h (fun u v => if u = x ∧ v = y then true else vis u v) + 1 =
      unvisitedCount w h vis := by
  rw [unvisitedCount, unvisitedCount]
  have hset : ((Finset.range w ×ˢ Finset.range h).filter
      fun p => (if p.1 = x ∧ p.2 = y then true else vis p.1 p.2) = false) =
      ((Finset.range w ×ˢ Finset.range h).filter fun p => vis p.1 p.2 = false).erase (x, y) := by
    ext p
    simp only [Finset.mem_erase, Finset.mem_filter, Finset.mem_product, Finset.mem_range]
    constructor
    · rintro ⟨hmem, hcond⟩
      by_cases hp : p.1 = x ∧ p.2 = y
      · rw [if_pos hp] at hcond
        exact absurd hcond (by simp)
      · refine ⟨?_, hmem, by rwa [if_neg hp] at hcond⟩
        intro he
        rw [he] at hp
        exact hp ⟨rfl, rfl⟩
    · rintro ⟨hne, hmem, hcond⟩
      refine ⟨hmem, ?_⟩
      rw [if_neg ?_]
      · exact hcond
      · intro hp
        exact hne (Prod.ext hp.1 hp.2)
  rw [hset]
  exact Finset.card_erase_add_one (Finset.mem_filter.2
    ⟨Finset.mem_product.2 ⟨Finset.mem_range.2 hx, Finset.mem_range.2 hy⟩, hv⟩)

theorem pushNeighbors_length (w h x y : Nat) (l : List (Nat × Nat)) :
    (pushNeighbors w h x y l).length ≤ l.length + 4 := by
  simp only [pushNeighbors, pushIf]
  split_ifs <;> simp

theorem floodLoop_fuel_stable (t : ℚ) (bgR bgG bgB w h : Nat) :
    ∀ (fuel : Nat) (img : Raster) (vis : Nat → Nat → Bool) (q : List (Nat × Nat)),
      (∀ p ∈ q, p.1 < w ∧ p.2 < h) →
      q.length + 5 * unvisitedCount w h vis ≤ fuel →
      floodLoop t bgR bgG bgB w h fuel img vis q =
        floodLoop t bgR bgG bgB w h (fuel + 1) img vis q := by
  intro fuel
  induction fuel with
  | zero =>
    intro img vis q hq hm
    match q with
    | [] => rfl
    | (x, y) :: rest => simp [List.length_cons] at hm
  | succ fuel ih =>
    intro img vis q hq hm
    match q with
    | [] => rfl
    | (x, y) :: rest =>
      have hxy := hq (x, y) (List.mem_cons_self _ _)
      rw [floodLoop, floodLoop]
      by_cases hv : vis x y
      · rw [if_pos hv, if_pos hv]
        refine ih img vis rest (fun p hp => hq p (List.mem_cons_of_mem _ hp)) ?_
        simp only [List.length_cons] at hm
        omega
      · rw [if_neg hv, if_neg hv]
        have hvf : vis x y = false := by simpa using hv
        have huc := unvisitedCount_update w h x y vis hxy.1 hxy.2 hvf
        by_cases hc : colorsMatch (img.px x y).r (img.px x y).g (img.px x y).b bgR bgG bgB t
        · rw [if_pos hc, if_pos hc]
          refine ih _ _ _ ?_ ?_
          · intro p hp
            rcases mem_pushNeighbors w h x y rest p hp with hrest | h1 | h1 | h1 | h1
            · exact hq p (List.mem_cons_of_mem _ hrest)
            · rw [h1.1]
              exact ⟨by omega, hxy.2⟩
            · rw [h1.1]
              refine ⟨?_, hxy.2⟩
              have := h1.2
              omega
            · rw [h1.1]
              exact ⟨hxy.1, by omega⟩
            · rw [h1.1]
              refine ⟨hxy.1, ?_⟩
              have := h1.2
              omega
          · have hlen := pushNeighbors_length w h x y rest
            simp only [List.length_cons] at hm
            omega
        · rw [if_neg hc, if_neg hc]
          refine ih img _ rest (fun p hp => hq p (List.mem_cons_of_mem _ hp)) ?_
          simp only [List.length_cons] at hm
          omega

theorem unvisitedCount_fresh (w h : Nat) :
    unvisitedCount w h (fun _ _ => false) = w * h := by
  rw [unvisitedCount]
  have : ((Finset.range w ×ˢ Finset.range h).filter
      fun _ => (false : Bool) = false) = Finset.range w ×ˢ Finset.range h := by
    refine Finset.filter_true_of_mem fun p _ => rfl
  rw [this, Finset.card_product, Finset.card_range, Finset.card_range]

/-- The fuel `removeBackgroundSmart` hands the worklist loop is past the
loop's fixpoint: any extra fuel computes the same raster, so the bounded
embedding agrees with the source's run-to-empty loop. -/
theorem removeBackgroundSmart_fuel_stable (img : Raster) (t : ℚ) (extra : Nat)
    (hw : 1 ≤ img.w) (hh : 1 ≤ img.h) :
    floodLoop t (img.px 0 0).r (img.px 0 0).g (img.px 0 0).b img.w img.h
      (5 * (img.w * img.h) + 4 + extra) img (fun _ _ => false)
      [(img.w - 1, img.h - 1), (0, img.h - 1), (img.w - 1, 0), (0, 0)] =
    floodLoop t (img.px 0 0).r (img.px 0 0).g (img.px 0 0).b img.w img.h
      (5 * (img.w * img.h) + 4) img (fun _ _ => false)
      [(img.w - 1, img.h - 1), (0, img.h - 1), (img.w - 1, 0), (0, 0)] := by
  induction extra with
  | zero => rfl
  | succ extra ih =>
    rw [← ih]
    have hq : ∀ p ∈ [(img.w - 1, img.h - 1), (0, img.h - 1), (img.w - 1, 0), (0, 0)],
        (p : Nat × Nat).1 < img.w ∧ p.2 < img.h := by
      intro p hp
      simp only [List.mem_cons, List.not_mem_nil, or_false] at hp
      rcases hp with h | h | h | h <;> rw [h] <;> constructor <;> omega
    have hmeas : ([(img.w - 1, img.h - 1), (0, img.h - 1), (img.w - 1, 0), (0, 0)] :
        List (Nat × Nat)).length + 5 * unvisitedCount img.w img.h (fun _ _ => false) ≤
        5 * (img.w * img.h) + 4 + extra := by
      rw [unvisitedCount_fresh]
      simp only [List.length_cons, List.length_nil]
      omega
    exact (floodLoop_fuel_stable t _ _ _ img.w img.h (5 * (img.w * img.h) + 4 + extra)
      img (fun _ _ => false) _ hq hmeas).symm

/-! ### Concrete demonstrations

A 5×5 raster: a white ring on the whole border, a red ring inside it, and
a single white pixel in the centre — the centre matches the background
color but has no 4-connected white path to any corner.  Evaluating both
removers shows the behavioral divergence concretely: flood fill clears the
border ring but keeps the enclosed hole opaque; the border model clears
both. -/
def ringHoleRaster : Raster :=
  ⟨5, 5, fun x y =>
    if x = 0 ∨ y = 0 ∨ x = 4 ∨ y = 4 then ⟨255, 255, 255, 255⟩
    else if x = 2 ∧ y = 2 then ⟨255, 255, 255, 255⟩
    else ⟨255, 0, 0, 255⟩⟩

theorem colorsMatch_white_white : colorsMatch 255 255 255 255 255 255 20 = true := by
  rw [colorsMatch, decide_eq_true_eq]
  norm_num

theorem colorsMatch_red_white : colorsMatch 255 0 0 255 255 255 20 = false := by
  rw [colorsMatch, decide_eq_false_iff_not]
  norm_num

theorem IsCornerPt_def (w h x y : Nat) :
    IsCornerPt w h x y ↔ (x = 0 ∨ x = w - 1) ∧ (y = 0 ∨ y = h - 1) := Iff.rfl

theorem ringHoleRaster_px_red (x y : Nat) (hb : ¬ (x = 0 ∨ y = 0 ∨ x = 4 ∨ y = 4))
    (hc : ¬ (x = 2 ∧ y = 2)) : ringHoleRaster.px x y = ⟨255, 0, 0, 255⟩ := by
  show (if x = 0 ∨ y = 0 ∨ x = 4 ∨ y = 4 then (⟨255, 255, 255, 255⟩ : Pix)
    else if x = 2 ∧ y = 2 then ⟨255, 255, 255, 255⟩ else ⟨255, 0, 0, 255⟩) = _
  rw [if_neg hb, if_neg hc]

/-- Every pixel the flood fill can reach on the ring-and-hole raster lies
on the border frame: the red ring never matches the white reference, and
the white centre is not adjacent to the frame. -/
theorem ringHole_reach_border (x y : Nat) (hr : Reach ringHoleRaster 20 x y) :
    x = 0 ∨ y = 0 ∨ x = 4 ∨ y = 4 := by
  induction hr with
  | corner hc _ =>
    rw [IsCornerPt_def] at hc
    have hw : ringHoleRaster.w = 5 := rfl
    have hh : ringHoleRaster.h = 5 := rfl
    rw [hw, hh] at hc
    omega
  | step hr hadj hin hm ih =>
    rename_i x' y' u v
    by_cases hb : u = 0 ∨ v = 0 ∨ u = 4 ∨ v = 4
    · exact hb
    · exfalso
      by_cases hc : u = 2 ∧ v = 2
      · obtain ⟨hu, hv⟩ := hc
        subst hu; subst hv
        rw [Adj] at hadj
        omega
      · rw [MatchesRef] at hm
        rw [ringHoleRaster_px_red u v hb hc] at hm
        rw [show ringHoleRaster.px 0 0 = ⟨255, 255, 255, 255⟩ from rfl] at hm
        rw [show colorsMatch (Pix.mk 255 0 0 255).r (Pix.mk 255 0 0 255).g
          (Pix.mk 255 0 0 255).b (Pix.mk 255 255 255 255).r (Pix.mk 255 255 255 255).g
          (Pix.mk 255 255 255 255).b 20 = colorsMatch 255 0 0 255 255 255 20 from rfl] at hm
        rw [colorsMatch_red_white] at hm
        exact Bool.false_ne_true hm

theorem ringHole_not_reach_center : ¬ Reach ringHoleRaster 20 2 2 := by
  intro hr
  have h := ringHole_reach_border 2 2 hr
  omega

theorem ringHole_center_matches_corner : matchesAnyCorner ringHoleRaster 20 2 2 = true := by
  rw [matchesAnyCorner]
  refine List.any_eq_true.2 ⟨(0, 0), ?_, ?_⟩
  · show (0, 0) ∈ cornerCoords ringHoleRaster.w ringHoleRaster.h
    rw [cornerCoords]
    exact List.mem_cons_self _ _
  · exact colorsMatch_white_white

/-- Demonstration of the claimed divergence on the concrete raster: the
flood fill leaves the enclosed white centre untouched in every byte, while
the border model clears its alpha (and also clears a corner pixel). -/
theorem ringHole_divergence :
    (removeBackgroundSmart ringHoleRaster 20 0).px 2 2 = ringHoleRaster.px 2 2 ∧
    ((removeBackgroundGrabCut ringHoleRaster 20 0).px 2 2).a = 0 ∧
    ((removeBackgroundGrabCut ringHoleRaster 20 0).px 0 0).a = 0 := by
  refine ⟨?_, ?_, ?_⟩
  · exact removeBackgroundSmart_sound ringHoleRaster 20 (by decide) (by decide) 2 2
      ringHole_not_reach_center
  · rw [removeBackgroundGrabCut, if_neg (by omega : ¬ 0 < 0), grabScan_eq_twoPhase]
    show (if ((2 < ringHoleRaster.w ∧ 2 < ringHoleRaster.h) ∧
        matchesAnyCorner ringHoleRaster 20 2 2 = true) then
        (⟨(ringHoleRaster.px 2 2).r, (ringHoleRaster.px 2 2).g, (ringHoleRaster.px 2 2).b, 0⟩ : Pix)
      else ringHoleRaster.px 2 2).a = 0
    rw [if_pos ⟨⟨by decide, by decide⟩, ringHole_center_matches_corner⟩]
  · rw [removeBackgroundGrabCut, if_neg (by omega : ¬ 0 < 0), grabScan_eq_twoPhase]
    show (if ((0 < ringHoleRaster.w ∧ 0 < ringHoleRaster.h) ∧
        matchesAnyCorner ringHoleRaster 20 0 0 = true) then
        (⟨(ringHoleRaster.px 0 0).r, (ringHoleRaster.px 0 0).g, (ringHoleRaster.px 0 0).b, 0⟩ : Pix)
      else ringHoleRaster.px 0 0).a = 0
    have hm : matchesAnyCorner ringHoleRaster 20 0 0 = true := by
      rw [matchesAnyCorner]
      refine List.any_eq_true.2 ⟨(0, 0), ?_, ?_⟩
      · show (0, 0) ∈ cornerCoords ringHoleRaster.w ringHoleRaster.h
        rw [cornerCoords]
        exact List.mem_cons_self _ _
      · exact colorsMatch_white_white
    rw [if_pos ⟨⟨by decide, by decide⟩, hm⟩]

/-- Demonstration of the end-to-end history scenario: two strokes, Apply,
a third stroke, then two consecutive undos — the first undo removes only
the pending stroke (mask history 1 → 0, base untouched), the second pops
the Apply's base snapshot back to the loaded image. -/
theorem history_scenario (m1 m2 m3 : Raster) :
    (runOps whiteRaster [Op.strokeStart m1, Op.strokeStart m2, Op.applyMask,
      Op.strokeStart m3, Op.undo]).baseHistory.length = 2 ∧
    (runOps whiteRaster [Op.strokeStart m1, Op.strokeStart m2, Op.applyMask,
      Op.strokeStart m3, Op.undo]).maskHistory = [] ∧
    (runOps whiteRaster [Op.strokeStart m1, Op.strokeStart m2, Op.applyMask,
      Op.strokeStart m3, Op.undo, Op.undo]).base = whiteRaster ∧
    (runOps whiteRaster [Op.strokeStart m1, Op.strokeStart m2, Op.applyMask,
      Op.strokeStart m3, Op.undo, Op.undo]).baseHistory = [whiteRaster] :=
  ⟨rfl, rfl, rfl, rfl⟩
